import Mathlib

/-!
Shallow embedding of the vote-tallying core of `people-pleaser-polling`
(`src/lib/store.ts` and the vote HTTP route `src/app/api/poll/[id]/vote/route.ts`).

Modelling conventions:
* JavaScript numbers are modelled as exact rationals (`ℚ`).  The exact
  model can diverge from the source's IEEE doubles at a rounding-tie
  boundary; concrete inputs used against the rounding rule are therefore
  chosen so the double computation reaches the tie exactly (see
  `sliderTiePoll`).
* `Math.round` is modelled by `jsRound`: round to nearest with ties toward
  positive infinity, i.e. `⌊x + 1/2⌋` (the ECMAScript semantics of
  `Math.round` on exact values).
* `Math.random()`-based tie-breaking picks `Math.floor(random * len)`, a
  uniformly drawn index in `[0, len)`.  Each draw is modelled by a natural
  number parameter reduced modulo the list length (`r % len`), which ranges
  over exactly the same indices.  The IRV loop draws once per elimination
  round, modelled as a function from the round counter to the draw.
* The JS `Set` of eliminated indices is modelled as a `List ℕ` with
  membership via `List.contains`.
* The in-memory `Map` of polls is modelled as an association list.
* `poll.votes[k][i]` is modelled as `List.getD i 0`; stored ballots always
  have length `options.length`, so the default is never consulted on the
  polls the claims quantify over.
* `firstChoiceCounts[i] > totalVotes / 2` (exact real division in JS for the
  sizes involved) is modelled by the equivalent `2 * count > totalVotes`
  over `ℕ`.
-/

namespace PPP

/-- The `VotingMethod` union type of `src/types/poll.ts`. -/
inductive VotingMethod
  | slider
  | ranked
  | single
  | veto
deriving DecidableEq

/-- The `Poll` interface of `src/types/poll.ts`. -/
structure Poll where
  id : String
  title : String
  options : List String
  votes : List (List ℚ)
  ended : Bool
  winner : Option String
  hideScores : Bool
  votingMethod : VotingMethod
  createdAt : ℕ
deriving DecidableEq

/-- `createPoll` from `store.ts` (lines 25-50): the freshly built poll record.
The id comes from `nanoid` and the creation time from `Date.now()`; both are
taken as parameters.  The title is supplied by the creation route. -/
def createPoll (id : String) (options : List String) (hideScores : Bool)
    (votingMethod : VotingMethod) (title : String) (createdAt : ℕ) : Poll :=
  { id := id
    title := title
    options := options
    votes := []
    ended := false
    winner := none
    hideScores := hideScores
    votingMethod := votingMethod
    createdAt := createdAt }

/-- `validateVote` from `store.ts` (lines 74-94).  The JS
`[...values].sort((a,b)=>a-b)` is an ascending sort of the values; any
sorted permutation of the input is the same list, so `insertionSort` is a
faithful model. -/
def validateVote (poll : Poll) (values : List ℚ) : Bool :=
  let n := poll.options.length
  if values.length ≠ n then false
  else
    match poll.votingMethod with
    | .slider => values.all (fun v => decide (-1 ≤ v) && decide (v ≤ 1))
    | .ranked =>
        let sortedVals := values.insertionSort (· ≤ ·)
        sortedVals.enum.all (fun p => decide (p.2 = (p.1 : ℚ) + 1))
    | .single =>
        let ones := (values.filter (fun v => decide (v = 1))).length
        let zeros := (values.filter (fun v => decide (v = 0))).length
        decide (ones = 1) && decide (zeros = n - 1)
    | .veto =>
        let ones := (values.filter (fun v => decide (v = 1))).length
        let zeros := (values.filter (fun v => decide (v = 0))).length
        decide (ones = 1) && decide (zeros = n - 1)

/-- ECMAScript `Math.round` on exact values: nearest integer, ties toward
positive infinity. -/
def jsRound (q : ℚ) : ℤ := ⌊q + 1 / 2⌋

/-- `getScores` from `store.ts` (lines 114-141).  `options.map((_, optIdx) => ...)`
only uses the index, hence the map over `List.range`. -/
def getScores (poll : Poll) : List ℚ :=
  if poll.votes.length = 0 then poll.options.map (fun _ => 0)
  else
    let n := poll.options.length
    match poll.votingMethod with
    | .slider =>
        (List.range n).map (fun optIdx =>
          let sum := poll.votes.foldl (fun acc vote => acc + vote.getD optIdx 0) 0
          (jsRound (sum / (poll.votes.length : ℚ) * 10) : ℚ) / 10)
    | .ranked =>
        (List.range n).map (fun optIdx =>
          let sum := poll.votes.foldl
            (fun acc vote => acc + ((n : ℚ) - vote.getD optIdx 0)) 0
          (jsRound (sum / (poll.votes.length : ℚ) * 10) : ℚ) / 10)
    | .single =>
        (List.range n).map (fun optIdx =>
          poll.votes.foldl (fun acc vote => acc + vote.getD optIdx 0) 0)
    | .veto =>
        (List.range n).map (fun optIdx =>
          poll.votes.foldl (fun acc vote => acc + vote.getD optIdx 0) 0)

/-- `Math.max(...scores)`.  The empty case (spread of an empty array gives
`-Infinity`) cannot arise: every poll has at least two options, so `scores`
is nonempty wherever this is called. -/
def jsMax (l : List ℚ) : ℚ :=
  match l with
  | [] => 0
  | a :: t => t.foldl max a

/-- `Math.min(...scores)`; same remark as `jsMax`. -/
def jsMin (l : List ℚ) : ℚ :=
  match l with
  | [] => 0
  | a :: t => t.foldl min a

/-- The `winners = options.filter((_, i) => scores[i] === target)` followed by
`winners[Math.floor(Math.random() * winners.length)]` expression shared
verbatim by the three score-based winner functions of `store.ts`. -/
def tiePick (opts : List String) (scores : List ℚ) (target : ℚ) (r : ℕ) : String :=
  let winners := (opts.enum.filter (fun p => decide (scores.getD p.1 0 = target))).map Prod.snd
  winners.getD (r % winners.length) ""

/-- `findWinnerSlider` from `store.ts` (lines 143-148). -/
def findWinnerSlider (poll : Poll) (r : ℕ) : String :=
  let scores := getScores poll
  let maxScore := jsMax scores
  tiePick poll.options scores maxScore r

/-- `findWinnerSingle` from `store.ts` (lines 206-211). -/
def findWinnerSingle (poll : Poll) (r : ℕ) : String :=
  let scores := getScores poll
  let maxScore := jsMax scores
  tiePick poll.options scores maxScore r

/-- `findWinnerVeto` from `store.ts` (lines 213-218). -/
def findWinnerVeto (poll : Poll) (r : ℕ) : String :=
  let scores := getScores poll
  let minScore := jsMin scores
  tiePick poll.options scores minScore r

/-- The inner loop of `findWinnerRanked` (lines 162-169): scan the indices
`0..n-1` keeping the non-eliminated option with the strictly lowest rank seen
so far.  The JS state `(bestRank, bestIdx)` starts at `(Infinity, -1)`,
modelled as `none`; `vote[i] < Infinity` always holds for a rank value. -/
def bestChoice (n : ℕ) (elim : List ℕ) (vote : List ℚ) : Option (ℚ × ℕ) :=
  (List.range n).foldl
    (fun best i =>
      if !(elim.contains i) &&
          (match best with
           | none => true
           | some br => decide (vote.getD i 0 < br.1)) then
        some (vote.getD i 0, i)
      else best)
    none

/-- Lines 159-171 of `store.ts`: first-choice counts for one round.  A ballot
whose `bestIdx` stays `-1` contributes nothing (`if (bestIdx >= 0)` guard). -/
def firstChoiceCounts (poll : Poll) (elim : List ℕ) : List ℕ :=
  let n := poll.options.length
  poll.votes.foldl
    (fun counts vote =>
      match bestChoice n elim vote with
      | some br => counts.set br.2 (counts.getD br.2 0 + 1)
      | none => counts)
    (List.replicate n 0)

/-- Lines 173-179 of `store.ts`: the first non-eliminated index whose
first-choice count strictly exceeds half the ballot count. -/
def majorityWinner (poll : Poll) (elim : List ℕ) (counts : List ℕ) : Option ℕ :=
  (List.range poll.options.length).find?
    (fun i => !(elim.contains i) && decide (2 * counts.getD i 0 > poll.votes.length))

/-- Lines 181-187 of `store.ts`: minimum first-choice count over non-eliminated
indices.  The running JS minimum starts at `Infinity`, modelled as `none`. -/
def minActiveCount (n : ℕ) (elim : List ℕ) (counts : List ℕ) : Option ℕ :=
  (List.range n).foldl
    (fun m i =>
      if !(elim.contains i) then
        match m with
        | none => some (counts.getD i 0)
        | some v => if counts.getD i 0 < v then some (counts.getD i 0) else some v
      else m)
    none

/-- Lines 188-194 of `store.ts`: all non-eliminated indices tied at the
minimum count.  When every index is eliminated the JS minimum is `Infinity`
and no count equals it, which the `Option` comparison reproduces. -/
def lastPlace (n : ℕ) (elim : List ℕ) (counts : List ℕ) : List ℕ :=
  (List.range n).filter
    (fun i => !(elim.contains i) && decide (some (counts.getD i 0) = minActiveCount n elim counts))

/-- The round loop of `findWinnerRanked` (lines 157-203), by fuel on the
remaining rounds.  At fuel 0 the post-loop scan (lines 200-203) runs: the
first non-eliminated index wins, else the `options[0]` fallback.  When
`lastPlace` is empty the JS code adds `undefined` to the eliminated `Set`,
which changes no index's membership, so the eliminated list is kept as is. -/
def irvLoop (poll : Poll) (tb : ℕ → ℕ) : ℕ → ℕ → List ℕ → String
  | 0, _, elim =>
      (match (List.range poll.options.length).find? (fun i => !(elim.contains i)) with
       | some i => poll.options.getD i ""
       | none => poll.options.getD 0 "")
  | fuel + 1, round, elim =>
      let n := poll.options.length
      let counts := firstChoiceCounts poll elim
      match majorityWinner poll elim counts with
      | some i => poll.options.getD i ""
      | none =>
          match lastPlace n elim counts with
          | [] => irvLoop poll tb fuel (round + 1) elim
          | lp₀ :: lp₁ =>
              let lp := lp₀ :: lp₁
              irvLoop poll tb fuel (round + 1) (lp.getD (tb round % lp.length) 0 :: elim)

/-- `findWinnerRanked` from `store.ts` (lines 150-204): instant-runoff voting
with up to `n - 1` elimination rounds. -/
def findWinnerRanked (poll : Poll) (tb : ℕ → ℕ) : String :=
  irvLoop poll tb (poll.options.length - 1) 0 []

/-- The successful-path mutation of `addVote` (lines 96-112) on one poll:
`null`/ended/invalid checks, then `poll.votes.push(values)`. -/
def voteStep (poll : Poll) (values : List ℚ) : Option Poll :=
  if poll.ended then none
  else if !(validateVote poll values) then none
  else some { poll with votes := poll.votes ++ [values] }

/-- The mutation of `endPoll` (lines 220-252) on one poll: reject when already
ended, else set `ended` and compute `winner` (`options[0]` with zero ballots,
otherwise the per-method winner function). -/
def closeStep (poll : Poll) (tb : ℕ → ℕ) (r : ℕ) : Option Poll :=
  if poll.ended then none
  else
    let winner :=
      if poll.votes.length = 0 then poll.options.getD 0 ""
      else
        match poll.votingMethod with
        | .slider => findWinnerSlider poll r
        | .ranked => findWinnerRanked poll tb
        | .single => findWinnerSingle poll r
        | .veto => findWinnerVeto poll r
    some { poll with ended := true, winner := some winner }

/-- The in-memory poll store (`memPolls : Map<string, Poll>`). -/
abbrev Store := List (String × Poll)

/-- `getPoll` from `store.ts` (lines 52-65), in-memory branch.  Stored polls
always carry a voting method, so the backward-compat defaulting is a no-op. -/
def getPoll (s : Store) (id : String) : Option Poll :=
  (s.find? (fun e => e.1 == id)).map Prod.snd

/-- `memPolls.set(id, poll)`: replace the entry when the key is present,
otherwise add it. -/
def setPoll (s : Store) (id : String) (p : Poll) : Store :=
  if s.any (fun e => e.1 == id) then
    s.map (fun e => if e.1 == id then (id, p) else e)
  else s ++ [(id, p)]

/-- `addVote` from `store.ts` (lines 96-112): returns the reported outcome and
the store afterwards. -/
def addVote (s : Store) (id : String) (values : List ℚ) : Bool × Store :=
  match getPoll s id with
  | none => (false, s)
  | some poll =>
      match voteStep poll values with
      | none => (false, s)
      | some p' => (true, setPoll s id p')

/-- `endPoll` from `store.ts` (lines 220-252): returns the reported poll (or
`none` for a rejection) and the store afterwards. -/
def endPoll (s : Store) (id : String) (tb : ℕ → ℕ) (r : ℕ) : Option Poll × Store :=
  match getPoll s id with
  | none => (none, s)
  | some poll =>
      match closeStep poll tb r with
      | none => (none, s)
      | some p' => (some p', setPoll s id p')

/-- The range check of the vote HTTP route
(`src/app/api/poll/[id]/vote/route.ts` lines 18-20): every entry must be a
number in `[-1, 1]`.  In the `ℚ` model every entry is a number. -/
def routeValuesOk (values : List ℚ) : Bool :=
  values.all (fun v => decide (-1 ≤ v) && decide (v ≤ 1))

/-- The `POST` handler of the vote route (lines 18-36): range-check first,
only then `addVote`.  The Boolean reports the store operation's outcome;
note that the source elides `await` on `addVote`, so the real handler's JSON
reports success whenever the range check passes, regardless of that outcome.
Only the range-check-failure branch — which is faithful (a 400 before
`addVote` is ever consulted, store untouched) — is relied on below. -/
def votePOST (s : Store) (id : String) (values : List ℚ) : Bool × Store :=
  if routeValuesOk values then addVote s id values
  else (false, s)

/-! ### Spec-side definitions (for refinement comparisons) and scenario polls -/

/-- The ranked ballot the spec describes: the ranks `1..n` in order (spec §4.1:
"values form exactly the permutation 1..optionCount"). -/
def rankTarget (n : ℕ) : List ℚ :=
  (List.range n).map (fun i => (Nat.cast i : ℚ) + 1)

/-- The spec's per-option mean of `vote[i]` across all ballots (spec §4.2). -/
def ballotMean (poll : Poll) (i : ℕ) : ℚ :=
  (poll.votes.map (fun vote => vote.getD i 0)).sum / (poll.votes.length : ℚ)

/-- Modelled from the spec: "standard round-half-away-from-zero at one decimal
place" (spec §4.2) — the rounding rule the spec claims, which is not in the
source.  For nonnegative inputs it rounds `10m` half-up; for negative inputs
it mirrors, so a tie moves away from zero. -/
def roundHalfAwayTenth (m : ℚ) : ℚ :=
  if 0 ≤ m then (⌊m * 10 + 1 / 2⌋ : ℚ) / 10
  else -((⌊-m * 10 + 1 / 2⌋ : ℚ) / 10)

/-- Rounding of a mean to one decimal with the `Math.round` semantics the
source actually uses (ties toward positive infinity). -/
def jsRoundTenth (m : ℚ) : ℚ := (jsRound (m * 10) : ℚ) / 10

/-- The scores of spec §4.2 written as the spec words them (mean over the
ballots, expressed with `List.sum`; exact sums for single/veto), but with the
rounding amended to the `Math.round` semantics of the source. -/
def specScores (poll : Poll) : List ℚ :=
  let n := poll.options.length
  match poll.votingMethod with
  | .slider =>
      (List.range n).map (fun i => jsRoundTenth (ballotMean poll i))
  | .ranked =>
      (List.range n).map (fun i =>
        jsRoundTenth ((poll.votes.map (fun vote => (n : ℚ) - vote.getD i 0)).sum /
          (poll.votes.length : ℚ)))
  | .single =>
      (List.range n).map (fun i => (poll.votes.map (fun vote => vote.getD i 0)).sum)
  | .veto =>
      (List.range n).map (fun i => (poll.votes.map (fun vote => vote.getD i 0)).sum)

/-- Polls reachable through the core's own operations: created with at least
two options, grown by successful ballot appends, closed by a successful
close (spec §3 lifecycle). -/
inductive Reachable : Poll → Prop
  | created (id : String) (options : List String) (hideScores : Bool)
      (votingMethod : VotingMethod) (title : String) (createdAt : ℕ)
      (h2 : 2 ≤ options.length) :
      Reachable (createPoll id options hideScores votingMethod title createdAt)
  | voted {p : Poll} {values : List ℚ} {p' : Poll} :
      Reachable p → voteStep p values = some p' → Reachable p'
  | closed {p : Poll} {tb : ℕ → ℕ} {r : ℕ} {p' : Poll} :
      Reachable p → closeStep p tb r = some p' → Reachable p'

/-! ### Instrumented copy of the IRV loop

`irvLoopT` mirrors `irvLoop` step for step but additionally reports whether
anything anomalous happened during the run: a ballot whose scan found no
non-eliminated option (the `bestIdx >= 0` guard failing, i.e. abstention by
exhaustion), an empty `lastPlace`, or the final `options[0]` fallback being
reached.  `irvLoopT_fst` proves it computes the same winner as `irvLoop`. -/

/-- `firstChoiceCounts` together with a flag recording whether some ballot
contributed no first-choice vote. -/
def firstChoiceCountsT (poll : Poll) (elim : List ℕ) : List ℕ × Bool :=
  let n := poll.options.length
  poll.votes.foldl
    (fun acc vote =>
      match bestChoice n elim vote with
      | some br => (acc.1.set br.2 (acc.1.getD br.2 0 + 1), acc.2)
      | none => (acc.1, true))
    (List.replicate n 0, false)

/-- `irvLoop` together with a flag recording abstentions, empty `lastPlace`,
or the post-loop fallback. -/
def irvLoopT (poll : Poll) (tb : ℕ → ℕ) : ℕ → ℕ → List ℕ → String × Bool
  | 0, _, elim =>
      (match (List.range poll.options.length).find? (fun i => !(elim.contains i)) with
       | some i => (poll.options.getD i "", false)
       | none => (poll.options.getD 0 "", true))
  | fuel + 1, round, elim =>
      let n := poll.options.length
      let ct := firstChoiceCountsT poll elim
      match majorityWinner poll elim ct.1 with
      | some i => (poll.options.getD i "", ct.2)
      | none =>
          match lastPlace n elim ct.1 with
          | [] =>
              let res := irvLoopT poll tb fuel (round + 1) elim
              (res.1, true)
          | lp₀ :: lp₁ =>
              let lp := lp₀ :: lp₁
              let res := irvLoopT poll tb fuel (round + 1)
                (lp.getD (tb round % lp.length) 0 :: elim)
              (res.1, ct.2 || res.2)

/-! ### Concrete scenario polls from the spec's §8 -/

/-- The ranked IRV scenario: options `["A","B","C"]`, ballots
`[1,2,3]`, `[1,2,3]`, `[3,1,2]`. -/
def rankedScenario : Poll :=
  { id := "irv"
    title := ""
    options := ["A", "B", "C"]
    votes := [[1, 2, 3], [1, 2, 3], [3, 1, 2]]
    ended := false
    winner := none
    hideScores := false
    votingMethod := .ranked
    createdAt := 0 }

/-- The veto scenario: options `["X","Y"]`, ballots
`[[1,0],[1,0],[0,1]]`. -/
def vetoScenario : Poll :=
  { id := "veto"
    title := ""
    options := ["X", "Y"]
    votes := [[1, 0], [1, 0], [0, 1]]
    ended := false
    winner := none
    hideScores := false
    votingMethod := .veto
    createdAt := 0 }

/-- A slider poll whose first-option mean is `-0.15`: ten ballots, three of
them `[-0.5, 0]` and seven `[0, 0]`.  The input is chosen so that the
source's IEEE-double arithmetic agrees with the exact-rational trace at the
rounding tie: every partial sum of the fold is a multiple of `0.5` (exact in
doubles, total `-1.5`), and `(sum / 10) * 10` evaluates in doubles to exactly
`-1.5` (the double nearest `-0.15` times `10` is within a quarter ulp of
`-1.5`), where `Math.round` returns `-1` — so the program really scores this
option `-0.1`. -/
def sliderTiePoll : Poll :=
  { id := "half"
    title := ""
    options := ["A", "B"]
    votes := [[-1 / 2, 0], [-1 / 2, 0], [-1 / 2, 0], [0, 0], [0, 0], [0, 0],
      [0, 0], [0, 0], [0, 0], [0, 0]]
    ended := false
    winner := none
    hideScores := false
    votingMethod := .slider
    createdAt := 0 }

/-! ### Store lemmas -/

theorem find?_map_replace_self (t : Store) (id : String) (p : Poll)
    (hsome : t.any (fun e => e.1 == id) = true) :
    List.find? (fun e => e.1 == id)
      (t.map (fun e => if (e.1 == id) = true then (id, p) else e)) = some (id, p) := by
  induction t with
  | nil => simp at hsome
  | cons e t ih =>
      rw [List.map_cons]
      by_cases he : (e.1 == id) = true
      · rw [if_pos he]
        simp [List.find?_cons]
      · have he' : (e.1 == id) = false := by simpa using he
        rw [if_neg he]
        simp only [List.find?_cons, he']
        exact ih (by simpa [List.any_cons, he'] using hsome)

theorem find?_map_replace_ne (t : Store) (id id' : String) (p : Poll)
    (h : (id == id') = false) :
    List.find? (fun e => e.1 == id')
        (t.map (fun e => if (e.1 == id) = true then (id, p) else e)) =
      List.find? (fun e => e.1 == id') t := by
  induction t with
  | nil => rfl
  | cons e t ih =>
      rw [List.map_cons]
      by_cases he : (e.1 == id) = true
      · have he1 : e.1 = id := by simpa using he
        have he' : (e.1 == id') = false := by rw [he1]; exact h
        rw [if_pos he]
        simp only [List.find?_cons, h, he']
        exact ih
      · rw [if_neg he]
        simp only [List.find?_cons]
        cases hf : (e.1 == id') with
        | true => rfl
        | false => exact ih

theorem find?_append_beq (t : Store) (id : String) (p : Poll)
    (hall : ∀ e ∈ t, (e.1 == id) = false) :
    List.find? (fun e => e.1 == id) (t ++ [(id, p)]) = some (id, p) := by
  induction t with
  | nil => simp [List.find?_cons]
  | cons e t ih =>
      rw [List.cons_append]
      simp only [List.find?_cons, hall e (by simp)]
      exact ih (fun f hf => hall f (by simp [hf]))

theorem find?_append_last (t : Store) (f : String × Poll → Bool) (x : String × Poll)
    (hx : f x = false) : List.find? f (t ++ [x]) = List.find? f t := by
  induction t with
  | nil => simp [List.find?_cons, hx]
  | cons e t ih =>
      rw [List.cons_append]
      simp only [List.find?_cons]
      cases hf : f e with
      | true => rfl
      | false => exact ih

theorem getPoll_setPoll_self (s : Store) (id : String) (p : Poll) :
    getPoll (setPoll s id p) id = some p := by
  unfold getPoll setPoll
  by_cases hany : s.any (fun e => e.1 == id) = true
  · rw [if_pos hany, find?_map_replace_self s id p hany]
    rfl
  · have hall : ∀ e ∈ s, (e.1 == id) = false := by
      intro e he
      by_contra hc
      exact hany (List.any_eq_true.mpr ⟨e, he, by simpa using hc⟩)
    rw [if_neg hany, find?_append_beq s id p hall]
    rfl

theorem getPoll_setPoll_other (s : Store) (id id' : String) (p : Poll)
    (h : id' ≠ id) : getPoll (setPoll s id p) id' = getPoll s id' := by
  have hid' : (id == id') = false := by
    simpa using fun hc => h (by simpa using hc.symm)
  unfold getPoll setPoll
  by_cases hany : s.any (fun e => e.1 == id) = true
  · rw [if_pos hany, find?_map_replace_ne s id id' p hid']
  · rw [if_neg hany, find?_append_last s _ (id, p) (by simpa using hid')]

/-! ### Claims C4, C6, C7 -/

/-- C4: closing a non-ended poll with an empty votes list sets the winner to
`options[0]`, the first declared option, regardless of the voting method. -/
theorem claim_C4_zero_ballot_winner (s : Store) (id : String) (tb : ℕ → ℕ) (r : ℕ)
    (p : Poll) (hget : getPoll s id = some p) (hended : p.ended = false)
    (hvotes : p.votes = []) :
    (endPoll s id tb r).1 =
      some { p with ended := true, winner := some (p.options.getD 0 "") } := by
  simp [endPoll, closeStep, hget, hended, hvotes]

/-- C4 witness. -/
theorem claim_C4_zero_ballot_winner_witness :
    (endPoll [("w", createPoll "w" ["P", "Q"] false .veto "" 5)] "w" (fun _ => 0) 0).1 =
      some { createPoll "w" ["P", "Q"] false .veto "" 5 with
              ended := true, winner := some "P" } :=
  claim_C4_zero_ballot_winner _ "w" _ 0 _ (by decide) (by decide) (by decide)

/-- C6: closing an already-ended poll or a nonexistent poll id is rejected
with `none` and leaves the store (hence every poll's fields) unchanged. -/
theorem claim_C6_close_rejected (s : Store) (id : String) (tb : ℕ → ℕ) (r : ℕ)
    (h : getPoll s id = none ∨ ∃ p, getPoll s id = some p ∧ p.ended = true) :
    endPoll s id tb r = (none, s) := by
  rcases h with hnone | ⟨p, hget, hended⟩
  · simp [endPoll, hnone]
  · simp [endPoll, closeStep, hget, hended]

/-- C6 witness: an already-ended poll. -/
theorem claim_C6_close_rejected_witness :
    endPoll [("e", { createPoll "e" ["P", "Q"] false .slider "" 0 with
                      ended := true, winner := some "P" })] "e" (fun _ => 0) 0 =
      (none, [("e", { createPoll "e" ["P", "Q"] false .slider "" 0 with
                      ended := true, winner := some "P" })]) :=
  claim_C6_close_rejected _ "e" _ 0
    (Or.inr ⟨{ createPoll "e" ["P", "Q"] false .slider "" 0 with
                ended := true, winner := some "P" }, by decide, rfl⟩)

/-- C7: `addVote` either succeeds — the poll's votes grow by exactly the
submitted ballot appended at the end, every other field and every other poll
unchanged, and `true` is reported — or fails with `false` and the store
entirely unchanged. -/
theorem claim_C7_addvote_atomic (s : Store) (id : String) (values : List ℚ) :
    ((addVote s id values).1 = true →
      ∃ p, getPoll s id = some p ∧ p.ended = false ∧ validateVote p values = true ∧
        getPoll (addVote s id values).2 id = some { p with votes := p.votes ++ [values] } ∧
        ∀ id', id' ≠ id → getPoll (addVote s id values).2 id' = getPoll s id') ∧
    ((addVote s id values).1 = false → (addVote s id values).2 = s) := by
  cases hget : getPoll s id with
  | none =>
      have ha : addVote s id values = (false, s) := by simp [addVote, hget]
      rw [ha]
      exact ⟨fun h => by simp at h, fun _ => rfl⟩
  | some p =>
      cases hstep : voteStep p values with
      | none =>
          have ha : addVote s id values = (false, s) := by simp [addVote, hget, hstep]
          rw [ha]
          exact ⟨fun h => by simp at h, fun _ => rfl⟩
      | some p' =>
          have ha : addVote s id values = (true, setPoll s id p') := by
            simp [addVote, hget, hstep]
          unfold voteStep at hstep
          by_cases hended : p.ended = true
          · rw [if_pos hended] at hstep; exact absurd hstep (by simp)
          · rw [if_neg hended] at hstep
            by_cases hval : validateVote p values = true
            · rw [if_neg (by simp [hval])] at hstep
              have hp' : p' = { p with votes := p.votes ++ [values] } :=
                (Option.some_inj.mp hstep).symm
              rw [ha]
              refine ⟨fun _ => ⟨p, rfl, by simpa using hended, hval, ?_, ?_⟩,
                fun h => by simp at h⟩
              · rw [← hp']
                exact getPoll_setPoll_self s id p'
              · intro id' hid'
                exact getPoll_setPoll_other s id id' p' hid'
            · rw [if_pos (by simp [hval])] at hstep
              exact absurd hstep (by simp)

/-- C7 witness: a successful append on a fresh poll. -/
theorem claim_C7_addvote_atomic_witness :
    ∃ p, getPoll [("v", createPoll "v" ["P", "Q"] false .slider "" 0)] "v" = some p ∧
      p.ended = false ∧ validateVote p [1, 0] = true ∧
      getPoll (addVote [("v", createPoll "v" ["P", "Q"] false .slider "" 0)] "v" [1, 0]).2 "v" =
        some { p with votes := p.votes ++ [[1, 0]] } ∧
      ∀ id', id' ≠ "v" →
        getPoll (addVote [("v", createPoll "v" ["P", "Q"] false .slider "" 0)] "v" [1, 0]).2 id' =
          getPoll [("v", createPoll "v" ["P", "Q"] false .slider "" 0)] id' :=
  (claim_C7_addvote_atomic [("v", createPoll "v" ["P", "Q"] false .slider "" 0)] "v" [1, 0]).1
    (by decide)

/-! ### The ranked validator accepts exactly the permutations of 1..n -/

theorem rankTarget_length (n : ℕ) : (rankTarget n).length = n := by
  rw [rankTarget, List.length_map, List.length_range]

theorem rankTarget_sorted (n : ℕ) : List.Sorted (· ≤ ·) (rankTarget n) := by
  unfold rankTarget
  refine List.pairwise_map.mpr (List.Pairwise.imp ?_ (List.pairwise_le_range n))
  intro a b hab
  have hc : (a : ℚ) ≤ (b : ℚ) := by exact_mod_cast hab
  linarith

theorem rankTarget_getElem (n i : ℕ) (hi : i < (rankTarget n).length) :
    (rankTarget n)[i] = (i : ℚ) + 1 := by
  unfold rankTarget at hi ⊢
  rw [List.getElem_map, List.getElem_range]

theorem validate_ranked_iff (poll : Poll) (values : List ℚ)
    (hm : poll.votingMethod = .ranked) :
    validateVote poll values = true ↔
      values.Perm (rankTarget poll.options.length) := by
  set n := poll.options.length with hn
  have hS : (values.insertionSort (· ≤ ·)).Perm values :=
    List.perm_insertionSort _ values
  have hSort : List.Sorted (· ≤ ·) (values.insertionSort (· ≤ ·)) :=
    List.sorted_insertionSort _ values
  by_cases hlen : values.length = n
  · have hcond : ¬ (values.length ≠ n) := by simp [hlen]
    simp only [validateVote, hm, ← hn, if_neg hcond]
    constructor
    · intro h
      have hall := List.all_eq_true.mp h
      have hlenS : (values.insertionSort (· ≤ ·)).length = n :=
        hS.length_eq.trans hlen
      have hgetS : ∀ i (hi : i < (values.insertionSort (· ≤ ·)).length),
          (values.insertionSort (· ≤ ·))[i] = (i : ℚ) + 1 := by
        intro i hi
        have hmem : (i, (values.insertionSort (· ≤ ·))[i]) ∈
            (values.insertionSort (· ≤ ·)).enum := by
          rw [List.mem_enum_iff_getElem?]
          exact List.getElem?_eq_getElem hi
        simpa using hall _ hmem
      have hEq : values.insertionSort (· ≤ ·) = rankTarget n := by
        apply List.ext_getElem (by rw [hlenS, rankTarget_length])
        intro i h1 h2
        rw [hgetS i h1, rankTarget_getElem n i h2]
      exact (hS.symm.trans (hEq ▸ List.Perm.refl _))
    · intro hperm
      have hEq : values.insertionSort (· ≤ ·) = rankTarget n :=
        List.eq_of_perm_of_sorted (hS.trans hperm) hSort (rankTarget_sorted n)
      apply List.all_eq_true.mpr
      intro x hx
      rw [hEq] at hx
      have h2 := List.mem_enum_iff_getElem?.mp hx
      rcases List.getElem?_eq_some.mp h2 with ⟨hlt, hval⟩
      have hx2 : x.2 = (x.1 : ℚ) + 1 := by
        rw [← hval, rankTarget_getElem n x.1 hlt]
      simp [hx2]
  · have hcond : values.length ≠ n := hlen
    simp only [validateVote, hm, ← hn, if_pos hcond]
    constructor
    · intro h; exact absurd h (by simp)
    · intro hperm
      exact absurd (hperm.length_eq.trans (rankTarget_length n)) hlen

/-- C2: for the ranked method, the ballot validator accepts exactly the
value sequences of length `optionCount` that are a permutation of the ranks
`1..optionCount`; being a total function it never throws, and any other
input yields `false`. -/
theorem claim_C2_ranked_validator (poll : Poll) (values : List ℚ)
    (hm : poll.votingMethod = .ranked) :
    validateVote poll values = true ↔
      (values.length = poll.options.length ∧
        values.Perm (rankTarget poll.options.length)) := by
  rw [validate_ranked_iff poll values hm]
  exact ⟨fun h => ⟨h.length_eq.trans (rankTarget_length _), h⟩, fun h => h.2⟩

/-- C2 witness: `[2, 1]` is accepted for a ranked 2-option poll. -/
theorem claim_C2_ranked_validator_witness :
    validateVote (createPoll "c" ["P", "Q"] false .ranked "" 0) [2, 1] = true :=
  (claim_C2_ranked_validator (createPoll "c" ["P", "Q"] false .ranked "" 0) [2, 1]
      rfl).mpr (by
    refine ⟨by decide, ?_⟩
    have h : rankTarget (createPoll "c" ["P", "Q"] false .ranked "" 0).options.length
        = [1, 2] := by
      show rankTarget 2 = [1, 2]
      rw [rankTarget]
      norm_num [List.range_succ]
    rw [h]
    exact List.Perm.swap 1 2 [])

/-- The ranked ballot `[2, 1]` on a two-option poll is accepted by the core
validator (helper for concrete instantiations). -/
theorem validate_ranked_two_one :
    validateVote (createPoll "c" ["P", "Q"] false .ranked "" 0) [2, 1] = true := by
  rw [validate_ranked_iff _ _ rfl]
  show ([2, 1] : List ℚ).Perm (rankTarget 2)
  have h : rankTarget 2 = [1, 2] := by
    rw [rankTarget]
    norm_num [List.range_succ]
  rw [h]
  exact List.Perm.swap 1 2 []

/-- C9: the vote route's range check rejects every entry outside `[-1, 1]`
before `addVote` is consulted, so every ballot the core's ranked validator
accepts (which must contain the rank `optionCount ≥ 2`) is rejected by the
endpoint and never reaches `addVote`: the request fails and the store is
untouched. -/
theorem claim_C9_route_blocks_ranked (s : Store) (id : String) (poll : Poll)
    (values : List ℚ) (hm : poll.votingMethod = .ranked)
    (hn : 2 ≤ poll.options.length)
    (hv : validateVote poll values = true) :
    routeValuesOk values = false ∧ votePOST s id values = (false, s) := by
  have hperm := (validate_ranked_iff poll values hm).mp hv
  set n := poll.options.length with hndef
  have hmemT : (Nat.cast (n - 1) : ℚ) + 1 ∈ rankTarget n := by
    unfold rankTarget
    exact List.mem_map.mpr ⟨n - 1, List.mem_range.mpr (by omega), rfl⟩
  have hmem : (Nat.cast (n - 1) : ℚ) + 1 ∈ values := hperm.mem_iff.mpr hmemT
  have hgt : ¬ ((Nat.cast (n - 1) : ℚ) + 1 ≤ 1) := by
    have h1 : (1 : ℚ) ≤ (Nat.cast (n - 1) : ℚ) := by
      exact_mod_cast (by omega : 1 ≤ n - 1)
    linarith
  have hok : routeValuesOk values = false := by
    apply (Bool.eq_false_iff).mpr
    intro hc
    have := List.all_eq_true.mp hc _ hmem
    simp only [Bool.and_eq_true, decide_eq_true_eq] at this
    exact hgt this.2
  refine ⟨hok, ?_⟩
  unfold votePOST
  rw [hok]
  simp

/-- C9 witness: the valid ranked ballot `[2, 1]` is blocked by the route. -/
theorem claim_C9_route_blocks_ranked_witness :
    routeValuesOk [2, 1] = false ∧ votePOST [] "x" [2, 1] = (false, []) :=
  claim_C9_route_blocks_ranked [] "x"
    (createPoll "c" ["P", "Q"] false .ranked "" 0)
    [2, 1] rfl (by decide) validate_ranked_two_one

/-! ### C3: the rounding rule of getScores -/

theorem foldl_add_map (f : List ℚ → ℚ) (l : List (List ℚ)) (a : ℚ) :
    l.foldl (fun acc v => acc + f v) a = a + (l.map f).sum := by
  induction l generalizing a with
  | nil => simp
  | cons x t ih => simp [ih, add_assoc]

/-- C3 counterexample: a slider poll whose first-option mean is `-0.15`
(ten ballots, three of them `-0.5`, an input at which the source's double
arithmetic reaches the tie `-1.5` exactly — see `sliderTiePoll`).  The code
(JS `Math.round`, ties toward positive infinity) produces `-0.1`, while the
claimed round-half-away-from-zero rule demands `-0.2`. -/
theorem claim_C3_round_counterexample :
    ballotMean sliderTiePoll 0 = -(3 / 20) ∧
    (getScores sliderTiePoll).getD 0 0 = -(1 / 10) ∧
    roundHalfAwayTenth (ballotMean sliderTiePoll 0) = -(1 / 5) ∧
    (getScores sliderTiePoll).getD 0 0 ≠ roundHalfAwayTenth (ballotMean sliderTiePoll 0) := by
  have hmean : ballotMean sliderTiePoll 0 = -(3 / 20) := by
    norm_num [ballotMean, sliderTiePoll]
  have hscore : getScores sliderTiePoll = [-(1 / 10), 0] := by
    norm_num [getScores, sliderTiePoll, jsRound, List.range_succ]
  have hspec : roundHalfAwayTenth (ballotMean sliderTiePoll 0) = -(1 / 5) := by
    rw [hmean]
    norm_num [roundHalfAwayTenth]
  refine ⟨hmean, by rw [hscore]; rfl, hspec, ?_⟩
  rw [hscore, hspec]
  norm_num

/-- C3 amended: for every poll with at least one ballot, `getScores` returns
for slider/ranked the per-option mean rounded to one decimal with the
`Math.round` semantics — round to nearest, ties toward positive infinity, so
a negative tie rounds toward zero (the program realises this whenever its
double arithmetic reaches the tie exactly, as at `sliderTiePoll`, whose mean
`-0.15` scores `-0.1` and not `-0.2`) — and for single/veto the exact integer
sums with no rounding. -/
theorem claim_C3_scores_amended (poll : Poll) (hv : poll.votes ≠ []) :
    getScores poll = specScores poll := by
  have hlen : ¬ (poll.votes.length = 0) := by simpa using hv
  unfold getScores specScores
  rw [if_neg hlen]
  cases hm : poll.votingMethod <;>
    simp [foldl_add_map, ballotMean, jsRoundTenth]

/-- C3 amended witness. -/
theorem claim_C3_scores_amended_witness :
    getScores sliderTiePoll = specScores sliderTiePoll :=
  claim_C3_scores_amended sliderTiePoll (by simp [sliderTiePoll])

/-! ### Winner-selection membership lemmas and C5 -/

theorem getScores_length (poll : Poll) :
    (getScores poll).length = poll.options.length := by
  unfold getScores
  split
  · simp
  · cases poll.votingMethod <;> simp

theorem foldl_max_choice (t : List ℚ) : ∀ a : ℚ, t.foldl max a = a ∨ t.foldl max a ∈ t := by
  induction t with
  | nil => intro a; left; rfl
  | cons b t ih =>
      intro a
      rcases ih (max a b) with h | h
      · rcases max_choice a b with hm | hm
        · left; rw [List.foldl_cons, h, hm]
        · right; rw [List.foldl_cons, h, hm]; exact List.mem_cons_self b t
      · right; exact List.mem_cons_of_mem b h

theorem foldl_min_choice (t : List ℚ) : ∀ a : ℚ, t.foldl min a = a ∨ t.foldl min a ∈ t := by
  induction t with
  | nil => intro a; left; rfl
  | cons b t ih =>
      intro a
      rcases ih (min a b) with h | h
      · rcases min_choice a b with hm | hm
        · left; rw [List.foldl_cons, h, hm]
        · right; rw [List.foldl_cons, h, hm]; exact List.mem_cons_self b t
      · right; exact List.mem_cons_of_mem b h

theorem jsMax_mem (l : List ℚ) (h : l ≠ []) : jsMax l ∈ l := by
  cases l with
  | nil => exact absurd rfl h
  | cons a t =>
      show t.foldl max a ∈ a :: t
      rcases foldl_max_choice t a with h1 | h1
      · rw [h1]; exact List.mem_cons_self a t
      · exact List.mem_cons_of_mem a h1

theorem jsMin_mem (l : List ℚ) (h : l ≠ []) : jsMin l ∈ l := by
  cases l with
  | nil => exact absurd rfl h
  | cons a t =>
      show t.foldl min a ∈ a :: t
      rcases foldl_min_choice t a with h1 | h1
      · rw [h1]; exact List.mem_cons_self a t
      · exact List.mem_cons_of_mem a h1

theorem tiePick_mem (opts : List String) (scores : List ℚ) (target : ℚ) (r : ℕ)
    (hex : ∃ i, i < opts.length ∧ scores.getD i 0 = target) :
    ∃ i, i < opts.length ∧ scores.getD i 0 = target ∧
      tiePick opts scores target r = opts.getD i "" := by
  obtain ⟨i0, hi0, hs0⟩ := hex
  have hmem0 : (i0, opts[i0]) ∈ opts.enum :=
    List.mem_enum_iff_getElem?.mpr (List.getElem?_eq_getElem hi0)
  have hmemf : (i0, opts[i0]) ∈
      opts.enum.filter (fun p => decide (scores.getD p.1 0 = target)) :=
    List.mem_filter.mpr ⟨hmem0, by simpa using hs0⟩
  set winners :=
    (opts.enum.filter (fun p => decide (scores.getD p.1 0 = target))).map Prod.snd
    with hw
  have hne : winners ≠ [] := by
    intro hnil
    have hmw : opts[i0] ∈ winners := List.mem_map.mpr ⟨_, hmemf, rfl⟩
    rw [hnil] at hmw
    simp at hmw
  have hlt : r % winners.length < winners.length :=
    Nat.mod_lt _ (List.length_pos.mpr hne)
  have hmemw : winners.getD (r % winners.length) "" ∈ winners := by
    rw [List.getD_eq_getElem _ _ hlt]
    exact List.getElem_mem hlt
  rcases List.mem_map.mp hmemw with ⟨pair, hpf, hps⟩
  rcases List.mem_filter.mp hpf with ⟨hpe, hpp⟩
  rcases List.getElem?_eq_some.mp (List.mem_enum_iff_getElem?.mp hpe) with ⟨hplt, hpeq⟩
  refine ⟨pair.1, hplt, by simpa using hpp, ?_⟩
  show winners.getD (r % winners.length) "" = opts.getD pair.1 ""
  rw [List.getD_eq_getElem _ _ hplt, hpeq, hps]

theorem findWinnerVeto_mem (poll : Poll) (r : ℕ) (hn : 1 ≤ poll.options.length) :
    ∃ i, i < poll.options.length ∧
      (getScores poll).getD i 0 = jsMin (getScores poll) ∧
      findWinnerVeto poll r = poll.options.getD i "" := by
  have hlen := getScores_length poll
  have hne : getScores poll ≠ [] := by
    intro h
    rw [h] at hlen
    simp at hlen
    omega
  rcases List.mem_iff_getElem.mp (jsMin_mem _ hne) with ⟨j, hj, hjv⟩
  exact tiePick_mem poll.options (getScores poll) (jsMin (getScores poll)) r
    ⟨j, by omega, by rw [List.getD_eq_getElem _ _ hj, hjv]⟩

theorem findWinnerSlider_mem (poll : Poll) (r : ℕ) (hn : 1 ≤ poll.options.length) :
    ∃ i, i < poll.options.length ∧
      (getScores poll).getD i 0 = jsMax (getScores poll) ∧
      findWinnerSlider poll r = poll.options.getD i "" := by
  have hlen := getScores_length poll
  have hne : getScores poll ≠ [] := by
    intro h
    rw [h] at hlen
    simp at hlen
    omega
  rcases List.mem_iff_getElem.mp (jsMax_mem _ hne) with ⟨j, hj, hjv⟩
  exact tiePick_mem poll.options (getScores poll) (jsMax (getScores poll)) r
    ⟨j, by omega, by rw [List.getD_eq_getElem _ _ hj, hjv]⟩

theorem findWinnerSingle_mem (poll : Poll) (r : ℕ) (hn : 1 ≤ poll.options.length) :
    ∃ i, i < poll.options.length ∧
      (getScores poll).getD i 0 = jsMax (getScores poll) ∧
      findWinnerSingle poll r = poll.options.getD i "" := by
  have hlen := getScores_length poll
  have hne : getScores poll ≠ [] := by
    intro h
    rw [h] at hlen
    simp at hlen
    omega
  rcases List.mem_iff_getElem.mp (jsMax_mem _ hne) with ⟨j, hj, hjv⟩
  exact tiePick_mem poll.options (getScores poll) (jsMax (getScores poll)) r
    ⟨j, by omega, by rw [List.getD_eq_getElem _ _ hj, hjv]⟩

/-- C5: a veto-method winner always carries the minimum score (fewest
vetoes), for every tie-break draw; and on the spec's concrete scenario
(`["X","Y"]`, ballots `[[1,0],[1,0],[0,1]]`) the winner is `"Y"`
deterministically. -/
theorem claim_C5_veto_min_winner :
    (∀ (poll : Poll) (r : ℕ), poll.votingMethod = VotingMethod.veto →
      poll.votes ≠ [] → 1 ≤ poll.options.length →
      ∃ i, i < poll.options.length ∧
        (getScores poll).getD i 0 = jsMin (getScores poll) ∧
        findWinnerVeto poll r = poll.options.getD i "") ∧
    (∀ r : ℕ, findWinnerVeto vetoScenario r = "Y") := by
  constructor
  · intro poll r _hm _hv hn
    exact findWinnerVeto_mem poll r hn
  · intro r
    have hs : getScores vetoScenario = [2, 1] := by
      norm_num [getScores, vetoScenario, List.range_succ]
    have hmin : jsMin ([2, 1] : List ℚ) = 1 := by
      norm_num [jsMin]
    show tiePick vetoScenario.options (getScores vetoScenario)
      (jsMin (getScores vetoScenario)) r = "Y"
    rw [hs, hmin]
    simp only [tiePick]
    have hw : ((vetoScenario.options.enum.filter
        (fun p => decide (([2, 1] : List ℚ).getD p.1 0 = 1))).map Prod.snd) = ["Y"] := by
      decide
    rw [hw]
    simp [Nat.mod_one]

/-- C5 witness. -/
theorem claim_C5_veto_min_winner_witness :
    ∃ i, i < vetoScenario.options.length ∧
      (getScores vetoScenario).getD i 0 = jsMin (getScores vetoScenario) ∧
      findWinnerVeto vetoScenario 0 = vetoScenario.options.getD i "" :=
  claim_C5_veto_min_winner.1 vetoScenario 0 rfl (by simp [vetoScenario])
    (by norm_num [vetoScenario])

/-! ### C8: the winner/ended invariant over reachable polls -/

theorem getD_mem_str (opts : List String) (i : ℕ) (h : i < opts.length) :
    opts.getD i "" ∈ opts := by
  rw [List.getD_eq_getElem _ _ h]
  exact List.getElem_mem h

theorem irvLoop_zero (poll : Poll) (tb : ℕ → ℕ) (round : ℕ) (elim : List ℕ) :
    irvLoop poll tb 0 round elim =
      match (List.range poll.options.length).find? (fun i => !(elim.contains i)) with
      | some i => poll.options.getD i ""
      | none => poll.options.getD 0 "" := rfl

theorem irvLoop_succ (poll : Poll) (tb : ℕ → ℕ) (fuel round : ℕ) (elim : List ℕ) :
    irvLoop poll tb (fuel + 1) round elim =
      match majorityWinner poll elim (firstChoiceCounts poll elim) with
      | some i => poll.options.getD i ""
      | none =>
          match lastPlace poll.options.length elim (firstChoiceCounts poll elim) with
          | [] => irvLoop poll tb fuel (round + 1) elim
          | lp₀ :: lp₁ =>
              irvLoop poll tb fuel (round + 1)
                ((lp₀ :: lp₁).getD (tb round % (lp₀ :: lp₁).length) 0 :: elim) := rfl

theorem majorityWinner_lt (poll : Poll) (elim : List ℕ) (counts : List ℕ) (i : ℕ)
    (hm : majorityWinner poll elim counts = some i) : i < poll.options.length := by
  have hm' : (List.range poll.options.length).find?
      (fun j => !(elim.contains j) &&
        decide (2 * counts.getD j 0 > poll.votes.length)) = some i := hm
  exact List.mem_range.mp (List.mem_of_find?_eq_some hm')

theorem irvLoop_mem (poll : Poll) (tb : ℕ → ℕ) (hn : 1 ≤ poll.options.length) :
    ∀ fuel round elim, ∃ i, i < poll.options.length ∧
      irvLoop poll tb fuel round elim = poll.options.getD i "" := by
  intro fuel
  induction fuel with
  | zero =>
      intro round elim
      cases hf : (List.range poll.options.length).find? (fun i => !(elim.contains i)) with
      | none =>
          refine ⟨0, by omega, ?_⟩
          rw [irvLoop_zero, hf]
      | some i =>
          refine ⟨i, List.mem_range.mp (List.mem_of_find?_eq_some hf), ?_⟩
          rw [irvLoop_zero, hf]
  | succ fuel ih =>
      intro round elim
      cases hm : majorityWinner poll elim (firstChoiceCounts poll elim) with
      | some i =>
          refine ⟨i, majorityWinner_lt poll elim _ i hm, ?_⟩
          rw [irvLoop_succ, hm]
      | none =>
          cases hlp : lastPlace poll.options.length elim (firstChoiceCounts poll elim) with
          | nil =>
              rcases ih (round + 1) elim with ⟨i, hi, heq⟩
              refine ⟨i, hi, ?_⟩
              rw [irvLoop_succ, hm, hlp]
              exact heq
          | cons a t =>
              rcases ih (round + 1)
                  (((a :: t).getD (tb round % (a :: t).length) 0) :: elim) with ⟨i, hi, heq⟩
              refine ⟨i, hi, ?_⟩
              rw [irvLoop_succ, hm, hlp]
              exact heq

theorem findWinnerRanked_mem (poll : Poll) (tb : ℕ → ℕ)
    (hn : 1 ≤ poll.options.length) :
    ∃ i, i < poll.options.length ∧
      findWinnerRanked poll tb = poll.options.getD i "" :=
  irvLoop_mem poll tb hn (poll.options.length - 1) 0 []

theorem voteStep_fields (p : Poll) (values : List ℚ) (p' : Poll)
    (h : voteStep p values = some p') :
    p'.ended = p.ended ∧ p'.winner = p.winner ∧ p'.options = p.options := by
  unfold voteStep at h
  by_cases he : p.ended = true
  · rw [if_pos he] at h; exact absurd h (by simp)
  · rw [if_neg he] at h
    by_cases hval : validateVote p values = true
    · rw [if_neg (by simp [hval])] at h
      have := Option.some_inj.mp h
      subst this
      exact ⟨rfl, rfl, rfl⟩
    · rw [if_pos (by simp [hval])] at h; exact absurd h (by simp)

theorem closeStep_fields (p : Poll) (tb : ℕ → ℕ) (r : ℕ) (p' : Poll)
    (h : closeStep p tb r = some p') :
    p'.ended = true ∧ p'.options = p.options ∧ (∃ w, p'.winner = some w) ∧
      (1 ≤ p.options.length → ∃ w ∈ p.options, p'.winner = some w) := by
  unfold closeStep at h
  by_cases he : p.ended = true
  · rw [if_pos he] at h; exact absurd h (by simp)
  · rw [if_neg he] at h
    have := Option.some_inj.mp h
    subst this
    refine ⟨rfl, rfl, ⟨_, rfl⟩, ?_⟩
    intro hn
    by_cases hv0 : p.votes.length = 0
    · exact ⟨p.options.getD 0 "", getD_mem_str _ _ (by omega), by simp [hv0]⟩
    · cases hmeth : p.votingMethod with
      | slider =>
          rcases findWinnerSlider_mem p r hn with ⟨i, hi, _, heq⟩
          exact ⟨p.options.getD i "", getD_mem_str _ _ hi, by simp [hv0, hmeth, heq]⟩
      | ranked =>
          rcases findWinnerRanked_mem p tb hn with ⟨i, hi, heq⟩
          exact ⟨p.options.getD i "", getD_mem_str _ _ hi, by simp [hv0, hmeth, heq]⟩
      | single =>
          rcases findWinnerSingle_mem p r hn with ⟨i, hi, _, heq⟩
          exact ⟨p.options.getD i "", getD_mem_str _ _ hi, by simp [hv0, hmeth, heq]⟩
      | veto =>
          rcases findWinnerVeto_mem p r hn with ⟨i, hi, _, heq⟩
          exact ⟨p.options.getD i "", getD_mem_str _ _ hi, by simp [hv0, hmeth, heq]⟩

/-- C8: over every poll reachable by the core's operations, `winner` is
non-null exactly when `ended` is true: creation yields `ended = false` and
`winner = null`, a successful append preserves both fields, and a successful
close sets `ended := true` and `winner := some` option label in the same
step. -/
theorem claim_C8_winner_iff_ended :
    (∀ (id : String) (options : List String) (hide : Bool) (method : VotingMethod)
        (title : String) (t : ℕ),
        (createPoll id options hide method title t).ended = false ∧
        (createPoll id options hide method title t).winner = none) ∧
    (∀ (p : Poll) (values : List ℚ) (p' : Poll), voteStep p values = some p' →
        p'.ended = p.ended ∧ p'.winner = p.winner) ∧
    (∀ (p : Poll) (tb : ℕ → ℕ) (r : ℕ) (p' : Poll), 1 ≤ p.options.length →
        closeStep p tb r = some p' →
        p'.ended = true ∧ ∃ w ∈ p'.options, p'.winner = some w) ∧
    (∀ p : Poll, Reachable p → (p.winner ≠ none ↔ p.ended = true)) := by
  refine ⟨fun _ _ _ _ _ _ => ⟨rfl, rfl⟩, ?_, ?_, ?_⟩
  · intro p values p' h
    exact ⟨(voteStep_fields p values p' h).1, (voteStep_fields p values p' h).2.1⟩
  · intro p tb r p' hn h
    rcases closeStep_fields p tb r p' h with ⟨he, hopts, _, hmem⟩
    rcases hmem hn with ⟨w, hw, hww⟩
    exact ⟨he, w, by rw [hopts]; exact hw, hww⟩
  · intro p hr
    induction hr with
    | created id options hide method title t h2 => simp [createPoll]
    | voted hparent hstep ih =>
        rcases voteStep_fields _ _ _ hstep with ⟨he, hw, _⟩
        rw [he, hw]
        exact ih
    | closed hparent hstep ih =>
        rcases closeStep_fields _ _ _ _ hstep with ⟨he, _, ⟨w, hw⟩, _⟩
        rw [he, hw]
        simp

/-- C8 witness: a freshly created two-option poll is reachable and satisfies
the invariant. -/
theorem claim_C8_winner_iff_ended_witness :
    ((createPoll "r" ["P", "Q"] false .slider "" 0).winner ≠ none) ↔
      (createPoll "r" ["P", "Q"] false .slider "" 0).ended = true :=
  claim_C8_winner_iff_ended.2.2.2 _
    (Reachable.created "r" ["P", "Q"] false .slider "" 0 (by decide))

/-! ### C1: a first-round majority wins immediately, for every tie-break -/

theorem sum_set_succ (c : List ℕ) (i : ℕ) (h : i < c.length) :
    (c.set i (c.getD i 0 + 1)).sum = c.sum + 1 := by
  induction c generalizing i with
  | nil => simp at h
  | cons a t ih =>
      cases i with
      | zero =>
          rw [List.getD_cons_zero, List.set_cons_zero, List.sum_cons, List.sum_cons]
          omega
      | succ i =>
          have hi : i < t.length := by simpa using h
          rw [List.getD_cons_succ, List.set_cons_succ, List.sum_cons, List.sum_cons,
            ih i hi]
          omega

theorem sum_set_le (c : List ℕ) (i : ℕ) :
    (c.set i (c.getD i 0 + 1)).sum ≤ c.sum + 1 := by
  by_cases h : i < c.length
  · rw [sum_set_succ c i h]
  · rw [List.set_eq_of_length_le (by omega)]
    omega

theorem firstChoiceCounts_length (poll : Poll) (elim : List ℕ) :
    (firstChoiceCounts poll elim).length = poll.options.length := by
  have haux : ∀ (votes : List (List ℚ)) (c : List ℕ),
      (votes.foldl (fun counts vote =>
        match bestChoice poll.options.length elim vote with
        | some br => counts.set br.2 (counts.getD br.2 0 + 1)
        | none => counts) c).length = c.length := by
    intro votes
    induction votes with
    | nil => intro c; rfl
    | cons v vs ih =>
        intro c
        rw [List.foldl_cons]
        cases hbc : bestChoice poll.options.length elim v with
        | none => exact ih c
        | some br =>
            calc (vs.foldl _ (c.set br.2 (c.getD br.2 0 + 1))).length
                = (c.set br.2 (c.getD br.2 0 + 1)).length := ih _
              _ = c.length := by simp
  simpa [firstChoiceCounts] using haux poll.votes (List.replicate poll.options.length 0)

theorem firstChoiceCounts_sum_le (poll : Poll) (elim : List ℕ) :
    (firstChoiceCounts poll elim).sum ≤ poll.votes.length := by
  have haux : ∀ (votes : List (List ℚ)) (c : List ℕ),
      (votes.foldl (fun counts vote =>
        match bestChoice poll.options.length elim vote with
        | some br => counts.set br.2 (counts.getD br.2 0 + 1)
        | none => counts) c).sum ≤ c.sum + votes.length := by
    intro votes
    induction votes with
    | nil => intro c; simp
    | cons v vs ih =>
        intro c
        rw [List.foldl_cons]
        cases hbc : bestChoice poll.options.length elim v with
        | none =>
            calc (vs.foldl _ c).sum ≤ c.sum + vs.length := ih c
              _ ≤ c.sum + (v :: vs).length := by
                  simp only [List.length_cons]; omega
        | some br =>
            calc (vs.foldl _ (c.set br.2 (c.getD br.2 0 + 1))).sum
                ≤ (c.set br.2 (c.getD br.2 0 + 1)).sum + vs.length := ih _
              _ ≤ (c.sum + 1) + vs.length := by
                  have := sum_set_le c br.2
                  omega
              _ = c.sum + (v :: vs).length := by
                  simp only [List.length_cons]; omega
  have h0 := haux poll.votes (List.replicate poll.options.length 0)
  simpa [firstChoiceCounts] using h0

theorem getD_le_sum (l : List ℕ) (i : ℕ) : l.getD i 0 ≤ l.sum := by
  induction l generalizing i with
  | nil => simp [List.getD]
  | cons a t ih =>
      cases i with
      | zero =>
          rw [List.getD_cons_zero, List.sum_cons]
          omega
      | succ i =>
          rw [List.getD_cons_succ, List.sum_cons]
          have := ih i
          omega

theorem getD_two_le_sum (l : List ℕ) (i j : ℕ) (hij : i < j) (hj : j < l.length) :
    l.getD i 0 + l.getD j 0 ≤ l.sum := by
  induction l generalizing i j with
  | nil => simp at hj
  | cons a t ih =>
      cases j with
      | zero => omega
      | succ j =>
          cases i with
          | zero =>
              rw [List.getD_cons_zero, List.getD_cons_succ, List.sum_cons]
              have := getD_le_sum t j
              omega
          | succ i =>
              rw [List.getD_cons_succ, List.getD_cons_succ, List.sum_cons]
              have := ih i j (by omega) (by simpa using hj)
              omega

/-- C1: `findWinnerRanked` implements IRV; whenever some option's round-one
first-choice count strictly exceeds half the ballot count, that option's
label is returned, independent of the random tie-break source.  (The spec's
scenario is the witness: options `["A","B","C"]`, ballots
`[1,2,3],[1,2,3],[3,1,2]` give counts `A=2, B=1, C=0`, so `"A"` wins in
round 1.) -/
theorem claim_C1_irv_majority (poll : Poll) (i : ℕ) (tb : ℕ → ℕ)
    (hn : 2 ≤ poll.options.length) (hi : i < poll.options.length)
    (hmaj : 2 * (firstChoiceCounts poll []).getD i 0 > poll.votes.length) :
    findWinnerRanked poll tb = poll.options.getD i "" := by
  obtain ⟨f, hf⟩ : ∃ f, poll.options.length - 1 = f + 1 :=
    ⟨poll.options.length - 2, by omega⟩
  cases hm : majorityWinner poll [] (firstChoiceCounts poll []) with
  | none =>
      exfalso
      have hm' : (List.range poll.options.length).find?
          (fun k => !(List.contains [] k) &&
            decide (2 * (firstChoiceCounts poll []).getD k 0 > poll.votes.length)) =
          none := hm
      have hni := List.find?_eq_none.mp hm' i (List.mem_range.mpr hi)
      rw [List.getD_eq_getElem?_getD] at hmaj
      simp at hni
      omega
  | some j =>
      have hm' : (List.range poll.options.length).find?
          (fun k => !(List.contains [] k) &&
            decide (2 * (firstChoiceCounts poll []).getD k 0 > poll.votes.length)) =
          some j := hm
      have hpj := List.find?_some hm'
      have hjn : j < poll.options.length :=
        List.mem_range.mp (List.mem_of_find?_eq_some hm')
      have hmajj : 2 * (firstChoiceCounts poll []).getD j 0 > poll.votes.length := by
        simpa using hpj
      have hsum := firstChoiceCounts_sum_le poll []
      have hij : j = i := by
        by_contra hne
        rcases Nat.lt_or_ge j i with hlt | hge
        · have := getD_two_le_sum (firstChoiceCounts poll []) j i hlt
            (by rw [firstChoiceCounts_length]; exact hi)
          omega
        · have hlt : i < j := by omega
          have := getD_two_le_sum (firstChoiceCounts poll []) i j hlt
            (by rw [firstChoiceCounts_length]; exact hjn)
          omega
      subst hij
      show irvLoop poll tb (poll.options.length - 1) 0 [] = poll.options.getD j ""
      rw [hf, irvLoop_succ, hm]

/-- C1 witness: the spec's IRV scenario.  `"A"` holds a round-1 majority
(2 of 3 first choices), so the winner is `"A"`. -/
theorem claim_C1_irv_majority_witness :
    findWinnerRanked rankedScenario (fun _ => 0) = rankedScenario.options.getD 0 "" :=
  claim_C1_irv_majority rankedScenario 0 (fun _ => 0) (by decide) (by decide) (by decide)

/-! ### C10: IRV safety — no abstention, fallback unreachable -/

theorem contains_true_mem (l : List ℕ) (x : ℕ) (h : l.contains x = true) : x ∈ l :=
  List.elem_iff.mp h

theorem contains_false_not_mem (l : List ℕ) (x : ℕ) (h : l.contains x = false) :
    x ∉ l := by
  intro hc
  have h2 : l.contains x = true := List.elem_iff.mpr hc
  rw [h2] at h
  simp at h

theorem bc_foldl_none (elim : List ℕ) (vote : List ℚ) :
    ∀ (l : List ℕ) (st : Option (ℚ × ℕ)),
      l.foldl (fun best i =>
        if !(elim.contains i) &&
            (match best with
             | none => true
             | some br => decide (vote.getD i 0 < br.1)) then
          some (vote.getD i 0, i)
        else best) st = none →
      st = none ∧ ∀ i ∈ l, elim.contains i = true := by
  intro l
  induction l with
  | nil =>
      intro st h
      exact ⟨h, by simp⟩
  | cons j t ih =>
      intro st h
      rw [List.foldl_cons] at h
      rcases ih _ h with ⟨hst, hall⟩
      by_cases hcj : elim.contains j = true
      · cases st with
        | none =>
            refine ⟨rfl, fun i hi => ?_⟩
            rcases List.mem_cons.mp hi with h1 | h1
            · rw [h1]; exact hcj
            · exact hall i h1
        | some br =>
            exfalso
            have hjm : j ∈ elim := contains_true_mem _ _ hcj
            simp [hjm] at hst
      · exfalso
        have hcj' : elim.contains j = false := by simpa using hcj
        have hjm : j ∉ elim := contains_false_not_mem _ _ hcj'
        cases st with
        | none =>
            simp [hjm] at hst
        | some br =>
            by_cases hlt : vote[j]?.getD 0 < br.1
            · simp [hjm, hlt] at hst
            · simp [hjm, hlt] at hst

theorem bestChoice_ne_none (n : ℕ) (elim : List ℕ) (vote : List ℚ)
    (hex : ∃ i, i < n ∧ elim.contains i = false) :
    bestChoice n elim vote ≠ none := by
  intro hnone
  obtain ⟨i, hi, hci⟩ := hex
  have h := (bc_foldl_none elim vote (List.range n) none hnone).2 i
    (List.mem_range.mpr hi)
  rw [h] at hci
  simp at hci

theorem mac_foldl_none (elim : List ℕ) (counts : List ℕ) :
    ∀ (l : List ℕ) (st : Option ℕ),
      l.foldl (fun m i =>
        if !(elim.contains i) then
          match m with
          | none => some (counts.getD i 0)
          | some v => if counts.getD i 0 < v then some (counts.getD i 0) else some v
        else m) st = none →
      st = none ∧ ∀ i ∈ l, elim.contains i = true := by
  intro l
  induction l with
  | nil =>
      intro st h
      exact ⟨h, by simp⟩
  | cons j t ih =>
      intro st h
      rw [List.foldl_cons] at h
      rcases ih _ h with ⟨hst, hall⟩
      by_cases hcj : elim.contains j = true
      · cases st with
        | none =>
            refine ⟨rfl, fun i hi => ?_⟩
            rcases List.mem_cons.mp hi with h1 | h1
            · rw [h1]; exact hcj
            · exact hall i h1
        | some v =>
            exfalso
            have hjm : j ∈ elim := contains_true_mem _ _ hcj
            simp [hjm] at hst
      · exfalso
        have hcj' : elim.contains j = false := by simpa using hcj
        have hjm : j ∉ elim := contains_false_not_mem _ _ hcj'
        cases st with
        | none =>
            simp [hjm] at hst
        | some v =>
            by_cases hlt : counts[j]?.getD 0 < v
            · simp [hjm, hlt] at hst
            · simp [hjm, hlt] at hst

theorem mac_attained (elim : List ℕ) (counts : List ℕ) :
    ∀ (l : List ℕ) (st : Option ℕ) (m : ℕ),
      l.foldl (fun m i =>
        if !(elim.contains i) then
          match m with
          | none => some (counts.getD i 0)
          | some v => if counts.getD i 0 < v then some (counts.getD i 0) else some v
        else m) st = some m →
      st = some m ∨ ∃ j ∈ l, elim.contains j = false ∧ counts.getD j 0 = m := by
  intro l
  induction l with
  | nil =>
      intro st m h
      exact Or.inl h
  | cons j t ih =>
      intro st m h
      rw [List.foldl_cons] at h
      rcases ih _ _ h with hst | ⟨k, hk, hck, hcm⟩
      · by_cases hcj : elim.contains j = true
        · have hjm : j ∈ elim := contains_true_mem _ _ hcj
          cases st with
          | none =>
              exfalso
              simp [hjm] at hst
          | some v =>
              simp [hjm] at hst
              exact Or.inl (by rw [hst])
        · have hcj' : elim.contains j = false := by simpa using hcj
          have hjm : j ∉ elim := contains_false_not_mem _ _ hcj'
          cases st with
          | none =>
              simp [hjm] at hst
              exact Or.inr ⟨j, List.mem_cons_self j t, hcj',
                by rw [List.getD_eq_getElem?_getD]; exact hst⟩
          | some v =>
              by_cases hlt : counts[j]?.getD 0 < v
              · simp [hjm, hlt] at hst
                exact Or.inr ⟨j, List.mem_cons_self j t, hcj',
                  by rw [List.getD_eq_getElem?_getD]; exact hst⟩
              · simp [hjm, hlt] at hst
                exact Or.inl (by rw [hst])
      · exact Or.inr ⟨k, List.mem_cons_of_mem j hk, hck, hcm⟩

theorem minActiveCount_attained (n : ℕ) (elim : List ℕ) (counts : List ℕ)
    (hex : ∃ i, i < n ∧ elim.contains i = false) :
    ∃ j, j < n ∧ elim.contains j = false ∧
      some (counts.getD j 0) = minActiveCount n elim counts := by
  cases hmac : minActiveCount n elim counts with
  | none =>
      exfalso
      obtain ⟨i, hi, hci⟩ := hex
      have h := (mac_foldl_none elim counts (List.range n) none hmac).2 i
        (List.mem_range.mpr hi)
      rw [h] at hci
      simp at hci
  | some m =>
      rcases mac_attained elim counts (List.range n) none m hmac with hst | ⟨j, hj, hcj, hcm⟩
      · simp at hst
      · exact ⟨j, List.mem_range.mp hj, hcj, by rw [hcm]⟩

theorem lastPlace_ne_nil (n : ℕ) (elim : List ℕ) (counts : List ℕ)
    (hex : ∃ i, i < n ∧ elim.contains i = false) :
    lastPlace n elim counts ≠ [] := by
  obtain ⟨j, hj, hcj, hcm⟩ := minActiveCount_attained n elim counts hex
  intro hnil
  have hmem : j ∈ lastPlace n elim counts := by
    unfold lastPlace
    refine List.mem_filter.mpr ⟨List.mem_range.mpr hj, ?_⟩
    rw [hcj]
    simp only [Bool.not_false, Bool.true_and, decide_eq_true_eq]
    exact hcm
  rw [hnil] at hmem
  simp at hmem

theorem exists_active (n : ℕ) (elim : List ℕ) (_hnd : elim.Nodup)
    (_hb : ∀ i ∈ elim, i < n) (hlen : elim.length < n) :
    ∃ i, i < n ∧ elim.contains i = false := by
  by_contra hc
  push_neg at hc
  have hsub : List.range n ⊆ elim := by
    intro x hx
    have h1 := hc x (List.mem_range.mp hx)
    have h2 : elim.contains x = true := by
      cases hcx : elim.contains x with
      | false => exact absurd hcx h1
      | true => rfl
    exact List.elem_iff.mp h2
  have hle := (List.subperm_of_subset (List.nodup_range n) hsub).length_le
  rw [List.length_range] at hle
  omega

theorem foldT_fst (n : ℕ) (elim : List ℕ) :
    ∀ (votes : List (List ℚ)) (c : List ℕ) (b : Bool),
      (votes.foldl (fun acc vote =>
        match bestChoice n elim vote with
        | some br => (acc.1.set br.2 (acc.1.getD br.2 0 + 1), acc.2)
        | none => (acc.1, true)) (c, b)).1 =
      votes.foldl (fun counts vote =>
        match bestChoice n elim vote with
        | some br => counts.set br.2 (counts.getD br.2 0 + 1)
        | none => counts) c := by
  intro votes
  induction votes with
  | nil => intro c b; rfl
  | cons v vs ih =>
      intro c b
      cases hbc : bestChoice n elim v with
      | none =>
          simp only [List.foldl_cons, hbc]
          exact ih c true
      | some br =>
          simp only [List.foldl_cons, hbc]
          exact ih _ b

theorem firstChoiceCountsT_fst (poll : Poll) (elim : List ℕ) :
    (firstChoiceCountsT poll elim).1 = firstChoiceCounts poll elim :=
  foldT_fst poll.options.length elim poll.votes
    (List.replicate poll.options.length 0) false

theorem foldT_snd (n : ℕ) (elim : List ℕ) :
    ∀ (votes : List (List ℚ)) (c : List ℕ) (b : Bool),
      (votes.foldl (fun acc vote =>
        match bestChoice n elim vote with
        | some br => (acc.1.set br.2 (acc.1.getD br.2 0 + 1), acc.2)
        | none => (acc.1, true)) (c, b)).2 =
      (b || votes.any (fun v => (bestChoice n elim v).isNone)) := by
  intro votes
  induction votes with
  | nil => intro c b; simp
  | cons v vs ih =>
      intro c b
      cases hbc : bestChoice n elim v with
      | none =>
          simp only [List.foldl_cons, hbc, List.any_cons]
          rw [ih _ true]
          simp
      | some br =>
          simp only [List.foldl_cons, hbc, List.any_cons]
          rw [ih _ b]
          simp

theorem firstChoiceCountsT_snd_false (poll : Poll) (elim : List ℕ)
    (hex : ∃ i, i < poll.options.length ∧ elim.contains i = false) :
    (firstChoiceCountsT poll elim).2 = false := by
  have h2 : (firstChoiceCountsT poll elim).2 =
      (false || poll.votes.any
        (fun v => (bestChoice poll.options.length elim v).isNone)) :=
    foldT_snd poll.options.length elim poll.votes
      (List.replicate poll.options.length 0) false
  have hany : poll.votes.any
      (fun v => (bestChoice poll.options.length elim v).isNone) = false := by
    cases hc : poll.votes.any
        (fun v => (bestChoice poll.options.length elim v).isNone) with
    | false => rfl
    | true =>
        exfalso
        rcases List.any_eq_true.mp hc with ⟨v, hv, hvn⟩
        have hne := bestChoice_ne_none poll.options.length elim v hex
        cases hbc : bestChoice poll.options.length elim v with
        | none => exact hne hbc
        | some br => rw [hbc] at hvn; simp at hvn
  rw [h2, hany]
  rfl

theorem irvLoopT_zero (poll : Poll) (tb : ℕ → ℕ) (round : ℕ) (elim : List ℕ) :
    irvLoopT poll tb 0 round elim =
      match (List.range poll.options.length).find? (fun i => !(elim.contains i)) with
      | some i => (poll.options.getD i "", false)
      | none => (poll.options.getD 0 "", true) := rfl

theorem irvLoopT_succ (poll : Poll) (tb : ℕ → ℕ) (fuel round : ℕ) (elim : List ℕ) :
    irvLoopT poll tb (fuel + 1) round elim =
      match majorityWinner poll elim (firstChoiceCountsT poll elim).1 with
      | some i => (poll.options.getD i "", (firstChoiceCountsT poll elim).2)
      | none =>
          match lastPlace poll.options.length elim (firstChoiceCountsT poll elim).1 with
          | [] => ((irvLoopT poll tb fuel (round + 1) elim).1, true)
          | lp₀ :: lp₁ =>
              ((irvLoopT poll tb fuel (round + 1)
                  ((lp₀ :: lp₁).getD (tb round % (lp₀ :: lp₁).length) 0 :: elim)).1,
                (firstChoiceCountsT poll elim).2 ||
                  (irvLoopT poll tb fuel (round + 1)
                    ((lp₀ :: lp₁).getD (tb round % (lp₀ :: lp₁).length) 0 :: elim)).2) := rfl

theorem irvLoopT_fst (poll : Poll) (tb : ℕ → ℕ) :
    ∀ fuel round elim,
      (irvLoopT poll tb fuel round elim).1 = irvLoop poll tb fuel round elim := by
  intro fuel
  induction fuel with
  | zero =>
      intro round elim
      rw [irvLoopT_zero, irvLoop_zero]
      cases hf : (List.range poll.options.length).find? (fun i => !(elim.contains i)) with
      | none => rfl
      | some i => rfl
  | succ fuel ih =>
      intro round elim
      rw [irvLoopT_succ, irvLoop_succ, firstChoiceCountsT_fst]
      cases hm : majorityWinner poll elim (firstChoiceCounts poll elim) with
      | some i => rfl
      | none =>
          cases hlp : lastPlace poll.options.length elim (firstChoiceCounts poll elim) with
          | nil => exact ih (round + 1) elim
          | cons a t => exact ih (round + 1) _

theorem irvLoopT_flag (poll : Poll) (tb : ℕ → ℕ) :
    ∀ (fuel : ℕ) (elim : List ℕ) (round : ℕ), elim.Nodup →
      (∀ i ∈ elim, i < poll.options.length) →
      elim.length + fuel < poll.options.length →
      (irvLoopT poll tb fuel round elim).2 = false := by
  intro fuel
  induction fuel with
  | zero =>
      intro elim round hnd hb hlen
      obtain ⟨i, hi, hci⟩ := exists_active poll.options.length elim hnd hb (by omega)
      rw [irvLoopT_zero]
      cases hf : (List.range poll.options.length).find? (fun k => !(elim.contains k)) with
      | some j => rfl
      | none =>
          exfalso
          have h := List.find?_eq_none.mp hf i (List.mem_range.mpr hi)
          exact h (by rw [hci]; rfl)
  | succ fuel ih =>
      intro elim round hnd hb hlen
      have hex : ∃ i, i < poll.options.length ∧ elim.contains i = false :=
        exists_active poll.options.length elim hnd hb (by omega)
      have hct2 : (firstChoiceCountsT poll elim).2 = false :=
        firstChoiceCountsT_snd_false poll elim hex
      rw [irvLoopT_succ, firstChoiceCountsT_fst]
      cases hm : majorityWinner poll elim (firstChoiceCounts poll elim) with
      | some i => simpa using hct2
      | none =>
          cases hlp : lastPlace poll.options.length elim (firstChoiceCounts poll elim) with
          | nil => exact absurd hlp (lastPlace_ne_nil _ _ _ hex)
          | cons a t =>
              have hltlen : tb round % (a :: t).length < (a :: t).length :=
                Nat.mod_lt _ (by simp)
              have hmem : (a :: t).getD (tb round % (a :: t).length) 0 ∈
                  lastPlace poll.options.length elim (firstChoiceCounts poll elim) := by
                rw [hlp, List.getD_eq_getElem _ _ hltlen]
                exact List.getElem_mem hltlen
              unfold lastPlace at hmem
              obtain ⟨hmr, hmp⟩ := List.mem_filter.mp hmem
              have hen : (a :: t).getD (tb round % (a :: t).length) 0 <
                  poll.options.length := List.mem_range.mp hmr
              rw [Bool.and_eq_true] at hmp
              obtain ⟨hmp1, _⟩ := hmp
              have hce : elim.contains ((a :: t).getD (tb round % (a :: t).length) 0) =
                  false := by simpa using hmp1
              have hnm : (a :: t).getD (tb round % (a :: t).length) 0 ∉ elim :=
                contains_false_not_mem _ _ hce
              have ih' := ih ((a :: t).getD (tb round % (a :: t).length) 0 :: elim)
                (round + 1) (List.nodup_cons.mpr ⟨hnm, hnd⟩)
                (by
                  intro i hi
                  rcases List.mem_cons.mp hi with h1 | h1
                  · rw [h1]; exact hen
                  · exact hb i h1)
                (by
                  rw [List.length_cons]
                  omega)
              show ((firstChoiceCountsT poll elim).2 ||
                (irvLoopT poll tb fuel (round + 1)
                  ((a :: t).getD (tb round % (a :: t).length) 0 :: elim)).2) = false
              rw [hct2, ih']
              rfl

/-- C10: for a ranked poll with `n ≥ 2` options whose stored ballots are all
valid ranked ballots, the IRV loop never sees an exhausted ballot (the
`bestIdx >= 0` guard always holds, so no abstention occurs), `lastPlace` is
never empty, and the final `options[0]` fallback after the post-loop scan is
unreachable; the instrumented run (flag `false`) computes exactly
`findWinnerRanked`. -/
theorem claim_C10_irv_safety (poll : Poll) (tb : ℕ → ℕ)
    (_hm : poll.votingMethod = VotingMethod.ranked) (hn : 2 ≤ poll.options.length)
    (_hv : ∀ v ∈ poll.votes, validateVote poll v = true) :
    (irvLoopT poll tb (poll.options.length - 1) 0 []).2 = false ∧
    findWinnerRanked poll tb = (irvLoopT poll tb (poll.options.length - 1) 0 []).1 := by
  refine ⟨?_, (irvLoopT_fst poll tb (poll.options.length - 1) 0 []).symm⟩
  apply irvLoopT_flag poll tb (poll.options.length - 1) [] 0 List.nodup_nil (by simp)
  show ([] : List ℕ).length + (poll.options.length - 1) < poll.options.length
  rw [List.length_nil]
  omega

/-- The spec scenario's ballots are all valid ranked ballots. -/
theorem rankedScenario_votes_valid :
    ∀ v ∈ rankedScenario.votes, validateVote rankedScenario v = true := by
  intro v hv
  rw [validate_ranked_iff _ _ rfl]
  have h3 : rankTarget rankedScenario.options.length = [1, 2, 3] := by
    show rankTarget 3 = [1, 2, 3]
    rw [rankTarget]
    norm_num [List.range_succ]
  rw [h3]
  fin_cases hv <;> decide

/-- C10 witness. -/
theorem claim_C10_irv_safety_witness :
    (irvLoopT rankedScenario (fun _ => 0) (rankedScenario.options.length - 1) 0 []).2 =
      false ∧
    findWinnerRanked rankedScenario (fun _ => 0) =
      (irvLoopT rankedScenario (fun _ => 0) (rankedScenario.options.length - 1) 0 []).1 :=
  claim_C10_irv_safety rankedScenario (fun _ => 0) rfl (by decide)
    rankedScenario_votes_valid

end PPP
